import Mathlib

/-!
Verification development for the point-cloud streaming / selection / edit-session
engine (frontend render core: tilesLoader.ts, rendering.ts, cameraInit.ts,
PointCloudEditor types).  The TypeScript source is shallowly embedded: mutable
typed arrays become Lean lists, JS `Set` becomes an insertion-ordered
duplicate-free list, fallible operations return a Bool success flag or Option,
and the asynchronous submission loop is modelled as a pure fold threaded
through an explicit response oracle.
-/

/-- A tile descriptor (types.ts `Tile`, the fields used by the loader). -/

structure Tile where
  id : Nat
  base_index : Nat
  points : Nat
  deriving DecidableEq, Repr

/-- Constant `TOOL_CODE.delete` from types.ts. -/

def TOOL_CODE_delete : Nat := 1

/-- Constant `TOOL_CODE.restore` from types.ts. -/

def TOOL_CODE_restore : Nat := 2

/-- Constant `MAX_INDICES_PER_OP` from types.ts. -/

def MAX_INDICES_PER_OP : Nat := 20000

/-- The tile magic constant from tilesLoader.ts. -/

def MAGIC : Nat := 0x50544344

/-! ## Tile streaming: contiguous loaded prefix (tilesLoader.ts, loadTilesEffect) -/

/-- State of the draw-range computation inside `loadTilesEffect`: the per-tile
`loadedFlags` array (sorted by `base_index`), the `headIdx` cursor, and the
current draw-range count set on the geometry. -/

structure LoaderState where
  loadedFlags : List Bool
  headIdx : Nat
  drawCount : Nat
  deriving DecidableEq, Repr

/-- The `while (headIdx < sortedTiles.length && loadedFlags[headIdx]) headIdx += 1`
loop: scans the flags from position `h` (given as the dropped suffix). -/

def advanceHeadAux : List Bool → Nat → Nat
  | [], h => h
  | b :: rest, h => if b then advanceHeadAux rest (h + 1) else h

/-- Advance `headIdx` past the run of loaded flags starting at `h`. -/

def advanceHead (flags : List Bool) (h : Nat) : Nat :=
  advanceHeadAux (flags.drop h) h

/-- Length of the longest all-`true` prefix of the flags: the index of the
first not-yet-loaded tile in `base_index` order. -/

def loadedPrefixCount (flags : List Bool) : Nat :=
  (flags.takeWhile id).length

/-- Function `updateDrawRangeForContiguousPrefix` (tilesLoader.ts:146-150): advance the
head cursor, then set the draw range to the head tile's `base_index`, or to
`points_total` when every tile is loaded. -/

def updateDrawRange (sortedTiles : List Tile) (points_total : Nat)
    (st : LoaderState) : LoaderState :=
  let h := advanceHead st.loadedFlags st.headIdx
  let c := match sortedTiles.get? h with
    | some t => t.base_index
    | none => points_total
  ⟨st.loadedFlags, h, c⟩

/-- Completion of one tile (tilesLoader.ts:212-216): mark its flag and update
the contiguous draw range. -/

def completeTile (sortedTiles : List Tile) (points_total : Nat)
    (st : LoaderState) (k : Nat) : LoaderState :=
  updateDrawRange sortedTiles points_total
    { st with loadedFlags := st.loadedFlags.set k true }

/-- Initial loader state: all flags false, head at 0. -/

def initLoader (n : Nat) : LoaderState :=
  ⟨List.replicate n false, 0, 0⟩

/-- Run the loader over an arbitrary order of tile completions. -/

def runLoader (sortedTiles : List Tile) (points_total : Nat)
    (order : List Nat) : LoaderState :=
  order.foldl (completeTile sortedTiles points_total) (initLoader sortedTiles.length)

/-- Invariant maintained by the loader: the head cursor equals the loaded
prefix length and the flags array has one slot per tile. -/

def LoaderInv (n : Nat) (st : LoaderState) : Prop :=
  st.headIdx = loadedPrefixCount st.loadedFlags ∧ st.loadedFlags.length = n

/-- The draw count the code computes from the head cursor, expressed through
the loaded-prefix length. -/

def drawTarget (sortedTiles : List Tile) (points_total : Nat)
    (flags : List Bool) : Nat :=
  match sortedTiles.get? (loadedPrefixCount flags) with
  | some t => t.base_index
  | none => points_total

/-- The tile list is ordered by `base_index` (the code sorts it with
`sort((a, b) => a.base_index - b.base_index)` before tracking flags). -/

def sortedByBase : List Tile → Bool
  | [] => true
  | [_] => true
  | a :: b :: rest => a.base_index ≤ b.base_index && sortedByBase (b :: rest)

/-! ## Session operation log: commit chunking (tilesLoader.ts, applySelection) -/

/-- Ceiling division, `ceil (a / b)` on naturals. -/

def ceilDiv (a b : Nat) : Nat := (a + b - 1) / b

/-- The chunking loop
`for (let i = 0; i < op.indices.length; i += MAX_INDICES_PER_OP)`
with `chunk = op.indices.slice(i, i + MAX_INDICES_PER_OP)`. -/

def chunksOf (l : List Nat) : List (List Nat) :=
  if h : l = [] then []
  else
    l.take MAX_INDICES_PER_OP :: chunksOf (l.drop MAX_INDICES_PER_OP)
termination_by l.length
decreasing_by
  simp only [List.length_drop]
  have hpos : 0 < l.length := List.length_pos.mpr h
  exact Nat.sub_lt hpos (by decide)

/-- One request to the operation-append API: the fields of the
`appendOps({ sessionId, baseVersion, ops: [{ action, indices }] })` call
(the session id is fixed for the whole commit and omitted). -/

structure AppendCall where
  action : String
  baseVersion : Nat
  indices : List Nat
  deriving DecidableEq, Repr

/-- The sequential submission loop of `applySelection`: submit each chunked
operation with the current expected version as `baseVersion`; after an
accepted chunk increment the local version; on a rejected chunk stop
(the `await` throws out of the loop into the surrounding `catch`).
Returns the calls actually issued, the final local session version, and
whether every chunk was accepted. -/

def submitChunks (respond : AppendCall → Bool) :
    List (String × List Nat) → Nat → List AppendCall × Nat × Bool
  | [], v => ([], v, true)
  | (a, c) :: rest, v =>
    let call : AppendCall := ⟨a, v, c⟩
    if respond call then
      let r := submitChunks respond rest (v + 1)
      (call :: r.1, r.2.1, r.2.2)
    else ([call], v, false)

/-- Commit op building: `applySelection` builds one logical operation per non-empty action,
`delete` before `restore` (tilesLoader.ts:743-749). -/

def buildOps (del res : List Nat) : List (String × List Nat) :=
  (if del.isEmpty then [] else [("delete", del)]) ++
    (if res.isEmpty then [] else [("restore", res)])

/-- Expand each logical operation into its chunk requests, in order. -/

def chunkOps (ops : List (String × List Nat)) : List (String × List Nat) :=
  ops.bind (fun p => (chunksOf p.2).map (fun c => (p.1, c)))

/-- The append calls a fully successful commit issues, starting from local
session version `v0`. -/

def plannedCalls (del res : List Nat) (v0 : Nat) : List AppendCall :=
  (submitChunks (fun _ => true) (chunkOps (buildOps del res)) v0).1

/-- The calls issued when every chunk request is accepted: versions are
assigned sequentially starting at `v`. -/

def callsFrom (reqs : List (String × List Nat)) (v : Nat) : List AppendCall :=
  match reqs with
  | [] => []
  | (a, c) :: rest => ⟨a, v, c⟩ :: callsFrom rest (v + 1)

/-! ## Point buffer store and tile parsing (tilesLoader.ts, parseTile) -/

/-- The shared per-point arrays (types.ts `InternalBuffers`).  Positions keep
the raw little-endian 32-bit words read from the payload (`getFloat32` reads
those same four bytes; no claim compares position values numerically);
display colors are exact rationals; `status` is 0 = alive, 1 = deleted;
`selections` is 0 = none, 1 = marked-delete, 2 = marked-restore. -/

structure InternalBuffers where
  positions : List Nat
  colors : List ℚ
  status : List Nat
  selections : List Nat
  intensities : Option (List Nat)
  lodIndex : Option (List Nat)
  deriving DecidableEq, Repr

/-- Read `DataView.getUint8`: fails (throws) when out of bounds. -/

def readU8 (bytes : List Nat) (off : Nat) : Option Nat := bytes.get? off

/-- Read `DataView.getUint32(off, true)`: little-endian, fails when any of the
four bytes is out of bounds. -/

def readU32LE (bytes : List Nat) (off : Nat) : Option Nat :=
  match bytes.get? off, bytes.get? (off + 1),
      bytes.get? (off + 2), bytes.get? (off + 3) with
  | some b0, some b1, some b2, some b3 =>
      some (b0 + 256 * b1 + 65536 * b2 + 16777216 * b3)
  | _, _, _, _ => none

/-- The base display color computed in the parse loop
(tilesLoader.ts:43-47). -/

def tileBaseColor (hasIntensities : Bool) (r g b intensity : Nat) : ℚ :=
  if hasIntensities then
    if 0 < intensity then (intensity : ℚ) / 255
    else max (((max r (max g b) : Nat) : ℚ) / 255) (35 / 100)
  else max (((max r (max g b) : Nat) : ℚ) / 255) (35 / 100)

/-- One iteration of the parse loop body: write position words, base color,
intensity, status, selection and LOD index at `tile.base_index + i`
(out-of-range typed-array writes are silently dropped, as `List.set` is). -/

def writePoint (tile : Tile) (b : InternalBuffers) (i : Nat)
    (x y z r g bl intensity : Nat) : InternalBuffers :=
  let globalIndex := tile.base_index + i
  let posOffset := globalIndex * 3
  let baseColor := tileBaseColor b.intensities.isSome r g bl intensity
  { positions :=
      ((b.positions.set posOffset x).set (posOffset + 1) y).set (posOffset + 2) z,
    colors :=
      ((b.colors.set posOffset baseColor).set (posOffset + 1) baseColor).set
        (posOffset + 2) baseColor,
    status := b.status.set globalIndex 0,
    selections := b.selections.set globalIndex 0,
    intensities := b.intensities.map (fun l => l.set globalIndex intensity),
    lodIndex := b.lodIndex.map (fun l => l.set globalIndex globalIndex) }

/-- The `for (let i = 0; i < count; i += 1)` parse loop; each record is 16
bytes starting at byte offset `10 + 16 * i`.  A short buffer makes a record
read fail mid-loop (DataView throws), leaving the writes made so far. -/

def parseLoop (bytes : List Nat) (tile : Tile) :
    Nat → Nat → InternalBuffers → InternalBuffers × Bool
  | 0, _, b => (b, true)
  | n + 1, i, b =>
    let off := 10 + 16 * i
    match readU32LE bytes off, readU32LE bytes (off + 4),
        readU32LE bytes (off + 8), readU8 bytes (off + 12),
        readU8 bytes (off + 13), readU8 bytes (off + 14),
        readU8 bytes (off + 15) with
    | some x, some y, some z, some r, some g, some bl, some it =>
        parseLoop bytes tile n (i + 1) (writePoint tile b i x y z r g bl it)
    | _, _, _, _, _, _, _ => (b, false)

/-- Function `parseTile` (tilesLoader.ts:10-64): check the 4-byte little-endian magic,
read the point count at offset 6, then run the parse loop.  The Bool is
`true` when parsing completed without throwing. -/

def parseTile (bytes : List Nat) (tile : Tile) (b : InternalBuffers) :
    InternalBuffers × Bool :=
  match readU32LE bytes 0 with
  | none => (b, false)
  | some magic =>
    if magic = MAGIC then
      match readU32LE bytes 6 with
      | none => (b, false)
      | some count => parseLoop bytes tile count 0 b
    else (b, false)

/-! ## Display color recomputation (rendering.ts, applyBaseColor) -/

/-- Write one point's display color triple at offset `index * 3`. -/

def setColor3 (colors : List ℚ) (index : Nat) (r g b : ℚ) : List ℚ :=
  ((colors.set (index * 3) r).set (index * 3 + 1) g).set (index * 3 + 2) b

/-- The selection color map of rendering.ts (`{0:[1,1,1], 1:[1,.25,.25],
2:[.2,1,.2]}`); `none` for a key outside the map (a JS lookup there yields
`undefined`, and destructuring it throws). -/

def SELECTION_COLOR_MAP : Nat → Option (ℚ × ℚ × ℚ)
  | 0 => some (1, 1, 1)
  | 1 => some (1, 1 / 4, 1 / 4)
  | 2 => some (1 / 5, 1, 1 / 5)
  | _ => none

/-- The intensity-derived gray used by `applyBaseColor`
(`max(intensities[index]/255, 0.15)`, or `0.35` without intensities). -/

def intensityBase (b : InternalBuffers) (index : Nat) : ℚ :=
  match b.intensities with
  | some ints => max ((ints.getD index 0 : ℚ) / 255) (15 / 100)
  | none => 35 / 100

/-- Function `applyBaseColor` (rendering.ts:15-33), written as the source writes it:
start from the intensity gray, overwrite with deleted-gray when
`status[index] === 1`, then overwrite with the selection color when
`useSelectionColors && selections[index] !== 0`.  Returns `none` exactly
when the JS code would throw (selection value outside the color map,
including an out-of-range read giving `undefined !== 0`). -/

def applyBaseColor (index : Nat) (b : InternalBuffers)
    (useSelectionColors : Bool) : Option InternalBuffers :=
  let base := intensityBase b index
  let rgb0 : ℚ × ℚ × ℚ := (base, base, base)
  let rgb1 := if b.status.get? index = some 1 then
      ((1 : ℚ) / 5, (1 : ℚ) / 5, (1 : ℚ) / 5)
    else rgb0
  if useSelectionColors ∧ b.selections.get? index ≠ some 0 then
    match b.selections.get? index with
    | none => none
    | some s =>
      match SELECTION_COLOR_MAP s with
      | none => none
      | some rgb2 =>
          some { b with
            colors := setColor3 b.colors index rgb2.1 rgb2.2.1 rgb2.2.2 }
  else
    some { b with colors := setColor3 b.colors index rgb1.1 rgb1.2.1 rgb1.2.2 }

/-- The precedence the spec states: selection color (when selection ≠ 0)
overrides deleted-gray (when status = 1) overrides intensity gray. -/

def precedenceColor (b : InternalBuffers) (index s st : Nat) : ℚ × ℚ × ℚ :=
  if s ≠ 0 then (SELECTION_COLOR_MAP s).getD (0, 0, 0)
  else if st = 1 then (1 / 5, 1 / 5, 1 / 5)
  else (intensityBase b index, intensityBase b index, intensityBase b index)

/-! ## Brush selection (tilesLoader.ts, updateSelection) -/

/-- JS `Set.add`: appends only when absent (insertion order preserved). -/

def setAdd (l : List Nat) (x : Nat) : List Nat :=
  if x ∈ l then l else l ++ [x]

/-- JS `Set.delete`: removes the element (the list never holds duplicates). -/

def setDelete (l : List Nat) (x : Nat) : List Nat := l.erase x

/-- The state touched by `updateSelection`: the two pending sets held in
refs, and the `selections` array of the buffers. -/

structure BrushState where
  pendingDelete : List Nat
  pendingRestore : List Nat
  selections : List Nat
  deriving DecidableEq, Repr

/-- Function `updateSelection` (tilesLoader.ts:434-448): ignore an undefined tool code
and any index outside `[0, selections.length)`; for the delete tool remove
the index from the restore set, add it to the delete set and write selection
code 1; for the restore tool symmetrically write code 2. -/

def updateSelection (index : Int) (toolCode : Option Nat)
    (st : BrushState) : BrushState :=
  match toolCode with
  | none => st
  | some tc =>
    if index < 0 ∨ (st.selections.length : Int) ≤ index then st
    else
      let i := index.toNat
      if tc = TOOL_CODE_delete then
        { pendingDelete := setAdd st.pendingDelete i,
          pendingRestore := setDelete st.pendingRestore i,
          selections := st.selections.set i TOOL_CODE_delete }
      else if tc = TOOL_CODE_restore then
        { pendingDelete := setDelete st.pendingDelete i,
          pendingRestore := setAdd st.pendingRestore i,
          selections := st.selections.set i TOOL_CODE_restore }
      else st

/-- Consistency of pending sets with the selections array: membership in a
pending set holds exactly for indices whose selection byte carries that
tool's code (each set is duplicate-free, as a JS `Set` is). -/

def selectionConsistent (st : BrushState) : Prop :=
  st.pendingDelete.Nodup ∧ st.pendingRestore.Nodup ∧
  (∀ i, i ∈ st.pendingDelete ↔ st.selections.get? i = some TOOL_CODE_delete) ∧
  (∀ i, i ∈ st.pendingRestore ↔ st.selections.get? i = some TOOL_CODE_restore)

/-! ## Compaction (tilesLoader.ts, compactBuffersAfterApply) -/

/-- The three consecutive entries of a flat xyz/rgb array belonging to point
`i`. -/

def sliceTriple {α : Type} (l : List α) (i : Nat) : List α :=
  (l.drop (i * 3)).take 3

/-- The indices the compaction keeps: `status[i] === 0` over
`N = positions.length / 3`, in increasing order. -/

def aliveIndices (b : InternalBuffers) : List Nat :=
  (List.range (b.positions.length / 3)).filter
    (fun i => b.status.get? i == some 0)

/-- Function `compactBuffersAfterApply` (tilesLoader.ts:643-722): collect the alive
indices; when nothing is removable return the store unchanged with 0,
otherwise rebuild position/color arrays by copying each kept triple in
order, reset status/selection to zero, copy intensities, renumber the LOD
index, and return the rebuilt store with the removed count. -/

def compactBuffers (b : InternalBuffers) : InternalBuffers × Nat :=
  let N := b.positions.length / 3
  let keepIdx := (List.range N).filter (fun i => b.status.get? i == some 0)
  let newCount := keepIdx.length
  if newCount = N then (b, 0)
  else
    let newPos := keepIdx.flatMap (fun i =>
      [b.positions.getD (i * 3) 0, b.positions.getD (i * 3 + 1) 0,
        b.positions.getD (i * 3 + 2) 0])
    let newCol := keepIdx.flatMap (fun i =>
      [b.colors.getD (i * 3) 0, b.colors.getD (i * 3 + 1) 0,
        b.colors.getD (i * 3 + 2) 0])
    (⟨newPos, newCol, List.replicate newCount 0, List.replicate newCount 0,
      b.intensities.map (fun ints => keepIdx.map (fun i => ints.getD i 0)),
      b.lodIndex.map (fun _ => List.range newCount)⟩, N - newCount)

/-- Well-formedness of a store: all arrays sized to the same point count. -/

def wfBuffers (b : InternalBuffers) : Prop :=
  b.positions.length = b.status.length * 3 ∧
  b.colors.length = b.status.length * 3 ∧
  b.selections.length = b.status.length ∧
  (match b.intensities with
    | some ints => ints.length == b.status.length
    | none => true) = true ∧
  (match b.lodIndex with
    | some lod => lod.length == b.status.length
    | none => true) = true

/-! ## Camera pose initialization: subsampling (cameraInit.ts,
tryInitializeCameraPose) -/

/-- Constant `maxSamples` from cameraInit.ts. -/

def maxSamples : Nat := 120000

/-- The sampling stride: `Math.max(1, Math.floor(count / maxSamples))`. -/

def strideFor (count : Nat) : Nat := max 1 (count / maxSamples)

/-- The sampling loop `for (let i = 0; i < count; i += stride)` collecting
the sampled indices (the guard on `stride` makes the recursion total; the
code always calls it with `stride ≥ 1`). -/

def sampleLoop (count stride i : Nat) : List Nat :=
  if h : 0 < stride ∧ i < count then i :: sampleLoop count stride (i + stride)
  else []
termination_by count - i
decreasing_by omega

/-- The indices `tryInitializeCameraPose` samples from the draw range. -/

def sampleIndices (count : Nat) : List Nat :=
  sampleLoop count (strideFor count) 0

/-- The number of points the camera-pose initializer samples. -/

def numSamples (count : Nat) : Nat := (sampleIndices count).length

/-! ## Commit submission, failure handling and local application
(tilesLoader.ts, applySelection) -/

/-- Local effect of a committed delete on one index
(tilesLoader.ts:774-780): status 1, selection cleared, deleted-gray color. -/

def applyDeleteLocal (b : InternalBuffers) (idx : Nat) : InternalBuffers :=
  { b with status := b.status.set idx 1,
           selections := b.selections.set idx 0,
           colors := setColor3 b.colors idx (1 / 5) (1 / 5) (1 / 5) }

/-- Local effect of a committed restore on one index
(tilesLoader.ts:784-791): status 0, selection cleared, intensity gray. -/

def applyRestoreLocal (b : InternalBuffers) (idx : Nat) : InternalBuffers :=
  { b with status := b.status.set idx 0,
           selections := b.selections.set idx 0,
           colors := setColor3 b.colors idx (intensityBase b idx)
             (intensityBase b idx) (intensityBase b idx) }

/-- The editor state `applySelection` touches: buffers, the two pending
sets, the deleted-index set, and the local expected session version. -/

structure EditorState where
  buffers : InternalBuffers
  pendingDelete : List Nat
  pendingRestore : List Nat
  deletedSet : List Nat
  sessionVersion : Nat
  deriving DecidableEq, Repr

/-- Function `applySelection` (tilesLoader.ts:724-816).  `respond` is the append-ops
endpoint: `true` = chunk accepted, `false` = rejected (the `await` throws).
Returns the final state, the append calls actually issued, and whether an
error was caught by the surrounding `try/catch` (which only logs it — the
function itself always resolves).  On a caught error only the local version
counter (already advanced per accepted chunk) differs; the pending sets,
buffers and deleted set are untouched.  On full success the local deletes
and restores are applied, the pending sets cleared, and the store
compacted. -/

def applySelectionModel (hasSession : Bool) (respond : AppendCall → Bool)
    (st : EditorState) : EditorState × List AppendCall × Bool :=
  if ¬hasSession ∨ (st.pendingDelete.isEmpty ∧ st.pendingRestore.isEmpty) then
    (st, [], false)
  else
    let reqs := chunkOps (buildOps st.pendingDelete st.pendingRestore)
    let r := submitChunks respond reqs st.sessionVersion
    if r.2.2 then
      let b1 := st.pendingDelete.foldl applyDeleteLocal st.buffers
      let ds1 := st.pendingDelete.foldl setAdd st.deletedSet
      let b2 := st.pendingRestore.foldl applyRestoreLocal b1
      let ds2 := st.pendingRestore.foldl setDelete ds1
      let c := compactBuffers b2
      ({ buffers := c.1, pendingDelete := [], pendingRestore := [],
         deletedSet := ds2, sessionVersion := r.2.1 }, r.1, false)
    else
      ({ st with sessionVersion := r.2.1 }, r.1, true)

/-! ## Theorems -/

theorem advanceHeadAux_eq (l : List Bool) (h : Nat) :
    advanceHeadAux l h = h + (l.takeWhile id).length := by
  induction l generalizing h with
  | nil => simp [advanceHeadAux]
  | cons b rest ih =>
    cases b with
    | true => simp [advanceHeadAux, List.takeWhile, ih, Nat.add_assoc, Nat.add_comm 1]
    | false => simp [advanceHeadAux, List.takeWhile]

theorem loadedPrefixCount_le (flags : List Bool) :
    loadedPrefixCount flags ≤ flags.length := by
  unfold loadedPrefixCount
  exact (List.takeWhile_sublist _).length_le

theorem get_lt_loadedPrefixCount (flags : List Bool) (j : Nat)
    (hj : j < loadedPrefixCount flags) : flags.get? j = some true := by
  induction flags generalizing j with
  | nil => simp [loadedPrefixCount] at hj
  | cons b rest ih =>
    cases b with
    | false => simp [loadedPrefixCount, List.takeWhile] at hj
    | true =>
      cases j with
      | zero => rfl
      | succ j' =>
        simp only [loadedPrefixCount, List.takeWhile] at hj
        simp only [List.get?]
        exact ih j' (Nat.lt_of_succ_lt_succ hj)

theorem loadedPrefixCount_drop (flags : List Bool) (h : Nat)
    (hall : ∀ j < h, flags.get? j = some true) (hle : h ≤ flags.length) :
    loadedPrefixCount flags = h + loadedPrefixCount (flags.drop h) := by
  induction h generalizing flags with
  | zero => simp
  | succ h' ih =>
    cases flags with
    | nil => simp at hle
    | cons b rest =>
      have hb : b = true := by
        have := hall 0 (Nat.succ_pos h')
        simpa using this
      subst hb
      have : loadedPrefixCount rest = h' + loadedPrefixCount (rest.drop h') := by
        apply ih
        · intro j hj
          have := hall (j + 1) (Nat.succ_lt_succ hj)
          simpa using this
        · exact Nat.le_of_succ_le_succ hle
      simp only [loadedPrefixCount, List.takeWhile, List.drop] at *
      simpa [Nat.succ_add] using congrArg Nat.succ this

theorem advanceHead_eq (flags : List Bool) (h : Nat)
    (hall : ∀ j < h, flags.get? j = some true) (hle : h ≤ flags.length) :
    advanceHead flags h = loadedPrefixCount flags := by
  unfold advanceHead
  rw [advanceHeadAux_eq]
  rw [loadedPrefixCount_drop flags h hall hle]
  rfl

theorem initLoader_inv (n : Nat) : LoaderInv n (initLoader n) := by
  constructor
  · cases n with
    | zero => rfl
    | succ m => simp [initLoader, loadedPrefixCount, List.replicate, List.takeWhile]
  · simp [initLoader]

theorem completeTile_inv (sortedTiles : List Tile) (points_total : Nat)
    (st : LoaderState) (k : Nat) (h : LoaderInv sortedTiles.length st) :
    LoaderInv sortedTiles.length (completeTile sortedTiles points_total st k) ∧
      (completeTile sortedTiles points_total st k).drawCount =
        drawTarget sortedTiles points_total
          (completeTile sortedTiles points_total st k).loadedFlags := by
  obtain ⟨hhead, hlen⟩ := h
  set flags' := st.loadedFlags.set k true with hflags'
  have hall : ∀ j < st.headIdx, flags'.get? j = some true := by
    intro j hj
    have hj' : j < loadedPrefixCount st.loadedFlags := hhead ▸ hj
    by_cases hjk : j = k
    · subst hjk
      have : j < st.loadedFlags.length :=
        Nat.lt_of_lt_of_le hj' (loadedPrefixCount_le _)
      exact List.get?_set_eq_of_lt true this
    · rw [hflags', List.get?_set_ne true _ (fun he => hjk he.symm)]
      exact get_lt_loadedPrefixCount _ j hj'
  have hle : st.headIdx ≤ flags'.length := by
    rw [hflags', List.length_set, ← hlen] at *
    exact hhead ▸ loadedPrefixCount_le st.loadedFlags
  have hadv : advanceHead flags' st.headIdx = loadedPrefixCount flags' :=
    advanceHead_eq flags' st.headIdx hall hle
  refine ⟨⟨?_, ?_⟩, ?_⟩
  · simpa [completeTile, updateDrawRange] using hadv
  · simp [completeTile, updateDrawRange, hflags', List.length_set, hlen]
  · simp [completeTile, updateDrawRange, drawTarget, hadv]

theorem runLoader_inv (sortedTiles : List Tile) (points_total : Nat)
    (order : List Nat) :
    LoaderInv sortedTiles.length (runLoader sortedTiles points_total order) := by
  unfold runLoader
  have : ∀ st, LoaderInv sortedTiles.length st →
      LoaderInv sortedTiles.length
        (order.foldl (completeTile sortedTiles points_total) st) := by
    induction order with
    | nil => intro st h; exact h
    | cons k rest ih =>
      intro st h
      exact ih _ (completeTile_inv sortedTiles points_total st k h).1
  exact this _ (initLoader_inv _)

theorem sortedByBase_tail (a : Tile) (l : List Tile)
    (h : sortedByBase (a :: l) = true) : sortedByBase l = true := by
  cases l with
  | nil => rfl
  | cons b rest =>
    simp only [sortedByBase, Bool.and_eq_true] at h
    exact h.2

theorem sortedByBase_head (a : Tile) (l : List Tile)
    (h : sortedByBase (a :: l) = true) :
    ∀ j tj, l.get? j = some tj → a.base_index ≤ tj.base_index := by
  induction l generalizing a with
  | nil => intro j tj hj; simp at hj
  | cons b rest ih =>
    intro j tj hj
    simp only [sortedByBase, Bool.and_eq_true, decide_eq_true_eq] at h
    cases j with
    | zero =>
      simp only [List.get?] at hj
      exact (Option.some.inj hj) ▸ h.1
    | succ j' =>
      simp only [List.get?] at hj
      exact Nat.le_trans h.1 (ih b h.2 j' tj hj)

theorem sortedByBase_mono (l : List Tile) (h : sortedByBase l = true) :
    ∀ i j ti tj, i ≤ j → l.get? i = some ti → l.get? j = some tj →
      ti.base_index ≤ tj.base_index := by
  induction l with
  | nil => intro i j ti tj _ hi; simp at hi
  | cons a rest ih =>
    intro i j ti tj hij hi hj
    cases i with
    | zero =>
      have hti : ti = a := (Option.some.inj (by simpa using hi)).symm
      cases j with
      | zero =>
        have htj : tj = a := (Option.some.inj (by simpa using hj)).symm
        rw [hti, htj]
      | succ j' =>
        simp only [List.get?] at hj
        exact hti ▸ sortedByBase_head a rest h j' tj hj
    | succ i' =>
      cases j with
      | zero => exact absurd hij (Nat.not_succ_le_zero i')
      | succ j' =>
        simp only [List.get?] at hi hj
        exact ih (sortedByBase_tail a rest h) i' j' ti tj
          (Nat.le_of_succ_le_succ hij) hi hj

/-- Claim C1: after every tile completion (following any history of
completions), the renderable draw range is `[0, P)` where `P` is the
`base_index` of the first not-yet-loaded tile in `base_index` order, or
`points_total` when all tiles are loaded; consequently the draw range never
reaches into a tile that has not loaded.  `sortedTiles` is the tile list
sorted by `base_index`, as the code sorts it before building the flags. -/
theorem loader_drawRange_contiguousLoaded (sortedTiles : List Tile)
    (points_total : Nat) (order : List Nat) (k : Nat)
    (hsorted : sortedByBase sortedTiles = true) :
    (completeTile sortedTiles points_total
        (runLoader sortedTiles points_total order) k).drawCount =
      drawTarget sortedTiles points_total
        (completeTile sortedTiles points_total
          (runLoader sortedTiles points_total order) k).loadedFlags ∧
    ∀ i t,
      (completeTile sortedTiles points_total
          (runLoader sortedTiles points_total order) k).loadedFlags.get? i =
        some false →
      sortedTiles.get? i = some t →
      (completeTile sortedTiles points_total
          (runLoader sortedTiles points_total order) k).drawCount ≤
        t.base_index := by
  have hinv := runLoader_inv sortedTiles points_total order
  obtain ⟨hinv', hdraw⟩ :=
    completeTile_inv sortedTiles points_total
      (runLoader sortedTiles points_total order) k hinv
  refine ⟨hdraw, ?_⟩
  intro i t hfalse ht
  set st := completeTile sortedTiles points_total
    (runLoader sortedTiles points_total order) k
  obtain ⟨hhead, hlen⟩ := hinv'
  have hprefix_le : loadedPrefixCount st.loadedFlags ≤ i := by
    by_contra hlt
    push_neg at hlt
    have := get_lt_loadedPrefixCount st.loadedFlags i hlt
    rw [hfalse] at this
    exact Bool.false_ne_true (Option.some.inj this)
  have hi_len : i < sortedTiles.length := by
    by_contra hge
    push_neg at hge
    rw [List.get?_eq_none.mpr hge] at ht
    exact Option.noConfusion ht
  have hp_len : loadedPrefixCount st.loadedFlags < sortedTiles.length :=
    Nat.lt_of_le_of_lt hprefix_le hi_len
  obtain ⟨t0, ht0⟩ : ∃ t0, sortedTiles.get? (loadedPrefixCount st.loadedFlags) =
      some t0 := ⟨_, List.get?_eq_get hp_len⟩
  have hmono : t0.base_index ≤ t.base_index :=
    sortedByBase_mono sortedTiles hsorted _ i t0 t hprefix_le ht0 ht
  rw [hdraw]
  unfold drawTarget
  rw [ht0]
  exact hmono

/-- Witness for Claim C1 on the spec scenario: three tiles with `base_index`
0, 1000, 2000 (1000 points each), tile 2 then tile 0 complete, then tile 1
completes: the draw range reaches `points_total = 3000`. -/
theorem loader_drawRange_contiguousLoaded_witness :
    sortedByBase
      [⟨0, 0, 1000⟩, ⟨1, 1000, 1000⟩, (⟨2, 2000, 1000⟩ : Tile)] = true ∧
    (completeTile [⟨0, 0, 1000⟩, ⟨1, 1000, 1000⟩, (⟨2, 2000, 1000⟩ : Tile)] 3000
        (runLoader [⟨0, 0, 1000⟩, ⟨1, 1000, 1000⟩, (⟨2, 2000, 1000⟩ : Tile)] 3000
          [2, 0]) 1).drawCount =
      drawTarget [⟨0, 0, 1000⟩, ⟨1, 1000, 1000⟩, (⟨2, 2000, 1000⟩ : Tile)] 3000
        (completeTile [⟨0, 0, 1000⟩, ⟨1, 1000, 1000⟩, (⟨2, 2000, 1000⟩ : Tile)]
            3000
          (runLoader [⟨0, 0, 1000⟩, ⟨1, 1000, 1000⟩, (⟨2, 2000, 1000⟩ : Tile)]
            3000 [2, 0]) 1).loadedFlags ∧
    ∀ i t,
      (completeTile [⟨0, 0, 1000⟩, ⟨1, 1000, 1000⟩, (⟨2, 2000, 1000⟩ : Tile)]
          3000
        (runLoader [⟨0, 0, 1000⟩, ⟨1, 1000, 1000⟩, (⟨2, 2000, 1000⟩ : Tile)]
          3000 [2, 0]) 1).loadedFlags.get? i = some false →
      [⟨0, 0, 1000⟩, ⟨1, 1000, 1000⟩, (⟨2, 2000, 1000⟩ : Tile)].get? i = some t →
      (completeTile [⟨0, 0, 1000⟩, ⟨1, 1000, 1000⟩, (⟨2, 2000, 1000⟩ : Tile)]
          3000
        (runLoader [⟨0, 0, 1000⟩, ⟨1, 1000, 1000⟩, (⟨2, 2000, 1000⟩ : Tile)]
          3000 [2, 0]) 1).drawCount ≤ t.base_index :=
  ⟨by decide,
    loader_drawRange_contiguousLoaded
      [⟨0, 0, 1000⟩, ⟨1, 1000, 1000⟩, (⟨2, 2000, 1000⟩ : Tile)] 3000 [2, 0] 1
      (by decide)⟩

theorem chunksOf_length (l : List Nat) :
    (chunksOf l).length = ceilDiv l.length MAX_INDICES_PER_OP := by
  induction l using chunksOf.induct with
  | case1 => simp [chunksOf, ceilDiv, MAX_INDICES_PER_OP]
  | case2 l hnil ih =>
    rw [chunksOf]
    simp only [hnil, dite_false, List.length_cons, List.length_drop, ih]
    have hpos : 0 < l.length := List.length_pos.mpr hnil
    unfold ceilDiv
    rcases le_or_lt l.length MAX_INDICES_PER_OP with hle | hlt
    · have h0 : l.length - MAX_INDICES_PER_OP = 0 := Nat.sub_eq_zero_of_le hle
      rw [h0]
      have hlhs : (0 + MAX_INDICES_PER_OP - 1) / MAX_INDICES_PER_OP = 0 :=
        Nat.div_eq_of_lt (by omega)
      have hrhs : (l.length + MAX_INDICES_PER_OP - 1) / MAX_INDICES_PER_OP = 1 := by
        have h1 : l.length + MAX_INDICES_PER_OP - 1 =
            (l.length - 1) + MAX_INDICES_PER_OP := by omega
        rw [h1, Nat.add_div_right _ (by decide : 0 < MAX_INDICES_PER_OP)]
        have : (l.length - 1) / MAX_INDICES_PER_OP = 0 :=
          Nat.div_eq_of_lt (by omega)
        omega
      rw [hlhs, hrhs]
    · have h1 : l.length - MAX_INDICES_PER_OP + MAX_INDICES_PER_OP - 1 =
          (l.length - MAX_INDICES_PER_OP - 1) + MAX_INDICES_PER_OP := by omega
      have h2 : l.length + MAX_INDICES_PER_OP - 1 =
          ((l.length - MAX_INDICES_PER_OP - 1) + MAX_INDICES_PER_OP)
            + MAX_INDICES_PER_OP := by omega
      rw [h1, h2, Nat.add_div_right _ (by decide : 0 < MAX_INDICES_PER_OP),
        Nat.add_div_right _ (by decide : 0 < MAX_INDICES_PER_OP),
        Nat.add_div_right _ (by decide : 0 < MAX_INDICES_PER_OP)]

theorem chunksOf_join (l : List Nat) : (chunksOf l).join = l := by
  induction l using chunksOf.induct with
  | case1 => simp [chunksOf]
  | case2 l hnil ih =>
    rw [chunksOf]
    simp only [hnil, dite_false, List.join_cons, ih, List.take_append_drop]

theorem chunksOf_mem (l : List Nat) :
    ∀ c ∈ chunksOf l, c.length ≤ MAX_INDICES_PER_OP ∧ c ≠ [] := by
  induction l using chunksOf.induct with
  | case1 => intro c hc; simp [chunksOf] at hc
  | case2 l hnil ih =>
    rw [chunksOf]
    simp only [hnil, dite_false, List.mem_cons]
    rintro c (rfl | hc)
    · refine ⟨?_, ?_⟩
      · simp [List.length_take]
      · rw [Ne, List.take_eq_nil_iff]
        push_neg
        exact ⟨by decide, hnil⟩
    · exact ih c hc

theorem submitChunks_all_accepted (reqs : List (String × List Nat)) (v : Nat) :
    submitChunks (fun _ => true) reqs v = (callsFrom reqs v, v + reqs.length, true) := by
  induction reqs generalizing v with
  | nil => simp [submitChunks, callsFrom]
  | cons p rest ih =>
    obtain ⟨a, c⟩ := p
    simp only [submitChunks, callsFrom, ih, if_true, Prod.mk.injEq,
      List.length_cons]
    refine ⟨trivial, by omega, trivial⟩

theorem callsFrom_length (reqs : List (String × List Nat)) (v : Nat) :
    (callsFrom reqs v).length = reqs.length := by
  induction reqs generalizing v with
  | nil => rfl
  | cons p rest ih => obtain ⟨a, c⟩ := p; simp [callsFrom, ih]

theorem callsFrom_map_baseVersion (reqs : List (String × List Nat)) (v : Nat) :
    (callsFrom reqs v).map (fun c => c.baseVersion) = List.range' v reqs.length := by
  induction reqs generalizing v with
  | nil => rfl
  | cons p rest ih =>
    obtain ⟨a, c⟩ := p
    simp [callsFrom, List.range', ih]

theorem callsFrom_append (xs ys : List (String × List Nat)) (v : Nat) :
    callsFrom (xs ++ ys) v = callsFrom xs v ++ callsFrom ys (v + xs.length) := by
  induction xs generalizing v with
  | nil => simp [callsFrom]
  | cons p rest ih =>
    obtain ⟨a, c⟩ := p
    simp only [List.cons_append, callsFrom, List.append_eq, ih,
      List.length_cons]
    have hv : v + 1 + rest.length = v + (rest.length + 1) := by omega
    rw [hv]

theorem callsFrom_tagged_action (a : String) (cs : List (List Nat)) (v : Nat) :
    (callsFrom (cs.map (fun c => (a, c))) v).map (fun c => c.action) =
      List.replicate cs.length a := by
  induction cs generalizing v with
  | nil => rfl
  | cons c rest ih => simp [callsFrom, ih, List.replicate]

theorem callsFrom_tagged_indices (a : String) (cs : List (List Nat)) (v : Nat) :
    (callsFrom (cs.map (fun c => (a, c))) v).map (fun c => c.indices) = cs := by
  induction cs generalizing v with
  | nil => rfl
  | cons c rest ih => simp [callsFrom, ih]

theorem callsFrom_mem_indices (reqs : List (String × List Nat)) (v : Nat) :
    ∀ c ∈ callsFrom reqs v, ∃ p ∈ reqs, c.indices = p.2 := by
  induction reqs generalizing v with
  | nil => intro c hc; simp [callsFrom] at hc
  | cons p rest ih =>
    obtain ⟨a, ck⟩ := p
    intro c hc
    simp only [callsFrom, List.mem_cons] at hc
    rcases hc with rfl | hc
    · exact ⟨(a, ck), List.mem_cons_self _ _, rfl⟩
    · obtain ⟨q, hq, he⟩ := ih (v + 1) c hc
      exact ⟨q, List.mem_cons_of_mem _ hq, he⟩

theorem chunkOps_buildOps (del res : List Nat) :
    chunkOps (buildOps del res) =
      (chunksOf del).map (fun c => ("delete", c)) ++
        (chunksOf res).map (fun c => ("restore", c)) := by
  unfold chunkOps buildOps
  rcases hd : del.isEmpty with hdf | hdt <;>
    rcases hr : res.isEmpty with hrf | hrt <;>
    simp_all [List.isEmpty_iff, List.bind] <;>
    simp [chunksOf]

theorem plannedCalls_eq (del res : List Nat) (v0 : Nat) :
    plannedCalls del res v0 =
      callsFrom ((chunksOf del).map (fun c => ("delete", c))) v0 ++
        callsFrom ((chunksOf res).map (fun c => ("restore", c)))
          (v0 + (chunksOf del).length) := by
  unfold plannedCalls
  rw [chunkOps_buildOps, submitChunks_all_accepted]
  simp only
  rw [callsFrom_append]
  simp [List.length_map]

/-- Claim C2: a commit of pending selections builds one logical operation per
non-empty action, `delete` before `restore`, splits each into chunks of at
most `MAX_INDICES_PER_OP = 20000` indices, and an index list of length `L`
produces `ceil(L / 20000)` sequential append calls whose `baseVersion` values
increase by exactly one per accepted chunk, starting from the local session
version `v0`; the chunks of each action concatenate back to its index list. -/
theorem applySelection_commit_chunking (del res : List Nat) (v0 : Nat) :
    (plannedCalls del res v0).length =
        ceilDiv del.length MAX_INDICES_PER_OP +
          ceilDiv res.length MAX_INDICES_PER_OP ∧
    (plannedCalls del res v0).map (fun c => c.baseVersion) =
        List.range' v0
          (ceilDiv del.length MAX_INDICES_PER_OP +
            ceilDiv res.length MAX_INDICES_PER_OP) ∧
    (∀ c ∈ plannedCalls del res v0,
        c.indices.length ≤ MAX_INDICES_PER_OP ∧ c.indices ≠ []) ∧
    (plannedCalls del res v0).map (fun c => c.action) =
        List.replicate (ceilDiv del.length MAX_INDICES_PER_OP) "delete" ++
          List.replicate (ceilDiv res.length MAX_INDICES_PER_OP) "restore" ∧
    (((plannedCalls del res v0).take
          (ceilDiv del.length MAX_INDICES_PER_OP)).map
        (fun c => c.indices)).join = del ∧
    (((plannedCalls del res v0).drop
          (ceilDiv del.length MAX_INDICES_PER_OP)).map
        (fun c => c.indices)).join = res := by
  have hdlen : (chunksOf del).length = ceilDiv del.length MAX_INDICES_PER_OP :=
    chunksOf_length del
  have hrlen : (chunksOf res).length = ceilDiv res.length MAX_INDICES_PER_OP :=
    chunksOf_length res
  have heq := plannedCalls_eq del res v0
  have hdcalls_len :
      (callsFrom ((chunksOf del).map (fun c => ("delete", c))) v0).length =
        ceilDiv del.length MAX_INDICES_PER_OP := by
    rw [callsFrom_length, List.length_map, hdlen]
  have hrcalls_len :
      (callsFrom ((chunksOf res).map (fun c => ("restore", c)))
          (v0 + (chunksOf del).length)).length =
        ceilDiv res.length MAX_INDICES_PER_OP := by
    rw [callsFrom_length, List.length_map, hrlen]
  refine ⟨?_, ?_, ?_, ?_, ?_, ?_⟩
  · rw [heq, List.length_append, hdcalls_len, hrcalls_len]
  · rw [heq, List.map_append, callsFrom_map_baseVersion,
      callsFrom_map_baseVersion, List.length_map, List.length_map,
      hdlen, hrlen]
    have := List.range'_append v0 (ceilDiv del.length MAX_INDICES_PER_OP)
      (ceilDiv res.length MAX_INDICES_PER_OP) 1
    simp only [Nat.one_mul, one_mul] at this
    rw [this, Nat.add_comm]
  · intro c hc
    rw [heq, List.mem_append] at hc
    rcases hc with hc | hc
    · obtain ⟨p, hp, hind⟩ := callsFrom_mem_indices _ _ c hc
      rw [List.mem_map] at hp
      obtain ⟨ck, hck, rfl⟩ := hp
      rw [hind]
      exact chunksOf_mem del ck hck
    · obtain ⟨p, hp, hind⟩ := callsFrom_mem_indices _ _ c hc
      rw [List.mem_map] at hp
      obtain ⟨ck, hck, rfl⟩ := hp
      rw [hind]
      exact chunksOf_mem res ck hck
  · rw [heq, List.map_append, callsFrom_tagged_action, callsFrom_tagged_action,
      hdlen, hrlen]
  · rw [heq, List.take_append_of_le_length (by rw [hdcalls_len]),
      List.take_of_length_le (by rw [hdcalls_len]),
      callsFrom_tagged_indices, chunksOf_join]
  · rw [heq, List.drop_append_of_le_length (by rw [hdcalls_len]),
      List.drop_of_length_le (by rw [hdcalls_len]), List.nil_append,
      callsFrom_tagged_indices, chunksOf_join]

/-- Claim C3: parsing a buffer whose leading 4-byte little-endian magic
differs from the expected constant fails, and every `PointBufferStore` array
(positions, colors, status, selections, intensities, lodIndex) is left
unchanged. -/
theorem parseTile_bad_magic_unchanged (bytes : List Nat) (tile : Tile)
    (b : InternalBuffers) (m : Nat) (hread : readU32LE bytes 0 = some m)
    (hm : m ≠ MAGIC) :
    (parseTile bytes tile b).2 = false ∧
    (parseTile bytes tile b).1.positions = b.positions ∧
    (parseTile bytes tile b).1.colors = b.colors ∧
    (parseTile bytes tile b).1.status = b.status ∧
    (parseTile bytes tile b).1.selections = b.selections ∧
    (parseTile bytes tile b).1.intensities = b.intensities ∧
    (parseTile bytes tile b).1.lodIndex = b.lodIndex := by
  unfold parseTile
  rw [hread]
  simp [hm]

/-- Witness for Claim C3: a four-byte buffer of zeros (magic 0) is rejected
and leaves a small concrete store untouched. -/
theorem parseTile_bad_magic_unchanged_witness :
    (readU32LE [0, 0, 0, 0] 0 = some 0 ∧ (0 : Nat) ≠ MAGIC) ∧
    ((parseTile [0, 0, 0, 0] ⟨7, 0, 1⟩
        ⟨[1, 2, 3], [1, 1, 1], [0], [0], none, none⟩).2 = false ∧
      (parseTile [0, 0, 0, 0] ⟨7, 0, 1⟩
        ⟨[1, 2, 3], [1, 1, 1], [0], [0], none, none⟩).1.positions = [1, 2, 3] ∧
      (parseTile [0, 0, 0, 0] ⟨7, 0, 1⟩
        ⟨[1, 2, 3], [1, 1, 1], [0], [0], none, none⟩).1.colors = [1, 1, 1] ∧
      (parseTile [0, 0, 0, 0] ⟨7, 0, 1⟩
        ⟨[1, 2, 3], [1, 1, 1], [0], [0], none, none⟩).1.status = [0] ∧
      (parseTile [0, 0, 0, 0] ⟨7, 0, 1⟩
        ⟨[1, 2, 3], [1, 1, 1], [0], [0], none, none⟩).1.selections = [0] ∧
      (parseTile [0, 0, 0, 0] ⟨7, 0, 1⟩
        ⟨[1, 2, 3], [1, 1, 1], [0], [0], none, none⟩).1.intensities = none ∧
      (parseTile [0, 0, 0, 0] ⟨7, 0, 1⟩
        ⟨[1, 2, 3], [1, 1, 1], [0], [0], none, none⟩).1.lodIndex = none) :=
  ⟨⟨by decide, by decide⟩,
    parseTile_bad_magic_unchanged [0, 0, 0, 0] ⟨7, 0, 1⟩
      ⟨[1, 2, 3], [1, 1, 1], [0], [0], none, none⟩ 0 (by decide) (by decide)⟩

/-- Claim C6: for every point whose selection value is one of the three
legal codes, the recomputed display color follows the precedence
selection-color over deleted-gray over intensity gray; in particular a
deleted point that is also marked keeps the selection tint. -/
theorem applyBaseColor_precedence (index : Nat) (b : InternalBuffers)
    (s st : Nat) (hsel : b.selections.get? index = some s)
    (hst : b.status.get? index = some st)
    (hs : s = 0 ∨ s = 1 ∨ s = 2) :
    applyBaseColor index b true =
      some { b with
        colors := setColor3 b.colors index (precedenceColor b index s st).1
          (precedenceColor b index s st).2.1
          (precedenceColor b index s st).2.2 } := by
  unfold applyBaseColor precedenceColor
  rw [hsel, hst]
  rcases hs with rfl | rfl | rfl
  · simp only [ne_eq, not_true_eq_false, and_false, if_false, ite_false,
      if_true, not_false_eq_true, true_and, reduceIte]
    by_cases hst1 : st = 1 <;> simp [hst1, SELECTION_COLOR_MAP]
  · by_cases hst1 : st = 1 <;> simp [hst1, SELECTION_COLOR_MAP]
  · by_cases hst1 : st = 1 <;> simp [hst1, SELECTION_COLOR_MAP]

/-- Witness for Claim C6 at a deleted, marked-for-delete point: status 1 and
selection 1 produce the selection tint `(1, 1/4, 1/4)`, not deleted-gray. -/
theorem applyBaseColor_precedence_witness :
    ((⟨[], [0, 0, 0], [1], [1], none, none⟩ :
        InternalBuffers).selections.get? 0 = some 1 ∧
      (⟨[], [0, 0, 0], [1], [1], none, none⟩ :
        InternalBuffers).status.get? 0 = some 1 ∧
      ((1 : Nat) = 0 ∨ (1 : Nat) = 1 ∨ (1 : Nat) = 2)) ∧
    precedenceColor ⟨[], [0, 0, 0], [1], [1], none, none⟩ 0 1 1 =
      (1, 1 / 4, 1 / 4) ∧
    applyBaseColor 0 ⟨[], [0, 0, 0], [1], [1], none, none⟩ true =
      some { (⟨[], [0, 0, 0], [1], [1], none, none⟩ : InternalBuffers) with
        colors := setColor3 [0, 0, 0] 0
          (precedenceColor ⟨[], [0, 0, 0], [1], [1], none, none⟩ 0 1 1).1
          (precedenceColor ⟨[], [0, 0, 0], [1], [1], none, none⟩ 0 1 1).2.1
          (precedenceColor ⟨[], [0, 0, 0], [1], [1], none, none⟩ 0 1 1).2.2 } :=
  ⟨⟨by decide, by decide, by decide⟩,
    by norm_num [precedenceColor, SELECTION_COLOR_MAP],
    applyBaseColor_precedence 0 ⟨[], [0, 0, 0], [1], [1], none, none⟩ 1 1
      (by decide) (by decide) (by decide)⟩

theorem mem_setAdd (l : List Nat) (x y : Nat) :
    y ∈ setAdd l x ↔ y ∈ l ∨ y = x := by
  unfold setAdd
  by_cases hx : x ∈ l
  · simp only [hx, if_true]
    constructor
    · exact Or.inl
    · rintro (h | rfl)
      · exact h
      · exact hx
  · simp [hx]

theorem nodup_setAdd (l : List Nat) (x : Nat) (h : l.Nodup) :
    (setAdd l x).Nodup := by
  unfold setAdd
  by_cases hx : x ∈ l
  · simpa [hx]
  · simp only [hx, if_false]
    exact List.Nodup.append h (List.nodup_singleton x)
      (List.disjoint_singleton.mpr hx)

theorem mem_setDelete (l : List Nat) (x y : Nat) (h : l.Nodup) :
    y ∈ setDelete l x ↔ y ∈ l ∧ y ≠ x := by
  unfold setDelete
  rw [List.Nodup.mem_erase_iff h]
  exact and_comm

theorem nodup_setDelete (l : List Nat) (x : Nat) (h : l.Nodup) :
    (setDelete l x).Nodup := h.erase x

theorem pending_update_consistent (P Q sel : List Nat) (i a b : Nat)
    (hab : a ≠ b) (hQ : Q.Nodup) (hi : i < sel.length)
    (hPc : ∀ j, j ∈ P ↔ sel.get? j = some a)
    (hQc : ∀ j, j ∈ Q ↔ sel.get? j = some b) :
    (∀ j, j ∈ setAdd P i ↔ (sel.set i a).get? j = some a) ∧
    (∀ j, j ∈ setDelete Q i ↔ (sel.set i a).get? j = some b) := by
  constructor
  · intro j
    rw [mem_setAdd]
    by_cases hji : j = i
    · subst hji
      rw [List.get?_set_eq_of_lt a hi]
      simp
    · rw [List.get?_set_ne a _ (fun he => hji he.symm)]
      simp only [hji, or_false]
      exact hPc j
  · intro j
    rw [mem_setDelete Q i j hQ]
    by_cases hji : j = i
    · subst hji
      rw [List.get?_set_eq_of_lt a hi]
      simp only [ne_eq, not_true_eq_false, and_false, false_iff]
      intro he
      exact hab (Option.some.inj he)
    · rw [List.get?_set_ne a _ (fun he => hji he.symm)]
      simp only [ne_eq, hji, not_false_eq_true, and_true]
      exact hQc j

theorem consistent_exclusive (st : BrushState) (h : selectionConsistent st) :
    ∀ i, ¬(i ∈ st.pendingDelete ∧ i ∈ st.pendingRestore) := by
  obtain ⟨_, _, hd, hr⟩ := h
  intro i ⟨hid, hir⟩
  have h1 := (hd i).mp hid
  have h2 := (hr i).mp hir
  rw [h1] at h2
  exact absurd (Option.some.inj h2) (by decide)

/-- Claim C4: every brush update preserves the selection/pending-set
consistency invariant — `i ∈ pendingDelete ⇔ selections[i] = 1` and
`i ∈ pendingRestore ⇔ selections[i] = 2` — and hence no index is ever in
both pending sets (so marking an index for delete and then restore leaves
it only in the restore set with selection code 2). -/
theorem updateSelection_preserves_consistency (index : Int)
    (toolCode : Option Nat) (st : BrushState)
    (h : selectionConsistent st) :
    selectionConsistent (updateSelection index toolCode st) ∧
    ∀ i, ¬(i ∈ (updateSelection index toolCode st).pendingDelete ∧
        i ∈ (updateSelection index toolCode st).pendingRestore) := by
  suffices hc : selectionConsistent (updateSelection index toolCode st) from
    ⟨hc, consistent_exclusive _ hc⟩
  obtain ⟨hnd, hnr, hd, hr⟩ := h
  unfold updateSelection
  match toolCode with
  | none => exact ⟨hnd, hnr, hd, hr⟩
  | some tc =>
    by_cases hrange : index < 0 ∨ (st.selections.length : Int) ≤ index
    · simp only [hrange, if_true]
      exact ⟨hnd, hnr, hd, hr⟩
    · simp only [hrange, if_false]
      have hi : index.toNat < st.selections.length := by
        push_neg at hrange
        omega
      by_cases h1 : tc = TOOL_CODE_delete
      · simp only [h1, if_true]
        obtain ⟨hP, hQ⟩ := pending_update_consistent st.pendingDelete
          st.pendingRestore st.selections index.toNat TOOL_CODE_delete
          TOOL_CODE_restore (by decide) hnr hi hd hr
        exact ⟨nodup_setAdd _ _ hnd, nodup_setDelete _ _ hnr, hP, hQ⟩
      · by_cases h2 : tc = TOOL_CODE_restore
        · simp only [h1, h2, if_false, if_true]
          obtain ⟨hP, hQ⟩ := pending_update_consistent st.pendingRestore
            st.pendingDelete st.selections index.toNat TOOL_CODE_restore
            TOOL_CODE_delete (by decide) hnd hi hr hd
          exact ⟨nodup_setDelete _ _ hnd, nodup_setAdd _ _ hnr, hQ, hP⟩
        · simp only [h1, h2, if_false]
          exact ⟨hnd, hnr, hd, hr⟩

theorem initialBrush_consistent (n : Nat) :
    selectionConsistent ⟨[], [], List.replicate n 0⟩ := by
  refine ⟨List.nodup_nil, List.nodup_nil, ?_, ?_⟩ <;>
    intro i <;> constructor <;> intro h
  · exact absurd h (List.not_mem_nil i)
  · have hv := List.eq_of_mem_replicate (List.get?_mem h)
    exact absurd hv (by decide)
  · exact absurd h (List.not_mem_nil i)
  · have hv := List.eq_of_mem_replicate (List.get?_mem h)
    exact absurd hv (by decide)

/-- Witness for Claim C4 on the spec scenario: starting from a clean
10-point state, selecting index 7 for delete and then for restore keeps the
invariant at each step; moreover the final state (computed below by
evaluation) holds 7 only in `pendingRestore` with selection code 2. -/
theorem updateSelection_preserves_consistency_witness :
    selectionConsistent ⟨[], [], List.replicate 10 0⟩ ∧
    (selectionConsistent
        (updateSelection 7 (some TOOL_CODE_restore)
          (updateSelection 7 (some TOOL_CODE_delete)
            ⟨[], [], List.replicate 10 0⟩)) ∧
      ∀ i, ¬(i ∈ (updateSelection 7 (some TOOL_CODE_restore)
            (updateSelection 7 (some TOOL_CODE_delete)
              ⟨[], [], List.replicate 10 0⟩)).pendingDelete ∧
          i ∈ (updateSelection 7 (some TOOL_CODE_restore)
            (updateSelection 7 (some TOOL_CODE_delete)
              ⟨[], [], List.replicate 10 0⟩)).pendingRestore)) ∧
    (updateSelection 7 (some TOOL_CODE_restore)
        (updateSelection 7 (some TOOL_CODE_delete)
          ⟨[], [], List.replicate 10 0⟩)).pendingDelete = [] ∧
    (updateSelection 7 (some TOOL_CODE_restore)
        (updateSelection 7 (some TOOL_CODE_delete)
          ⟨[], [], List.replicate 10 0⟩)).pendingRestore = [7] ∧
    (updateSelection 7 (some TOOL_CODE_restore)
        (updateSelection 7 (some TOOL_CODE_delete)
          ⟨[], [], List.replicate 10 0⟩)).selections.get? 7 =
      some TOOL_CODE_restore :=
  ⟨initialBrush_consistent 10,
    updateSelection_preserves_consistency 7 (some TOOL_CODE_restore) _
      (updateSelection_preserves_consistency 7 (some TOOL_CODE_delete)
        ⟨[], [], List.replicate 10 0⟩ (initialBrush_consistent 10)).1,
    by decide, by decide, by decide⟩

/-- Claim C10: an out-of-range brush candidate index (negative or at least
the selections length) leaves the whole brush state — both pending sets and
the selections array — unchanged. -/
theorem updateSelection_out_of_range_noop (index : Int)
    (toolCode : Option Nat) (st : BrushState)
    (h : index < 0 ∨ (st.selections.length : Int) ≤ index) :
    updateSelection index toolCode st = st := by
  unfold updateSelection
  match toolCode with
  | none => rfl
  | some tc => simp [h]

/-- Witness for Claim C10: a negative index with the delete tool leaves a
concrete non-trivial state untouched. -/
theorem updateSelection_out_of_range_noop_witness :
    ((-1 : Int) < 0 ∨
      (((⟨[1], [2], [0, 0, 0]⟩ : BrushState).selections.length : Int) ≤ -1)) ∧
    updateSelection (-1) (some TOOL_CODE_delete) ⟨[1], [2], [0, 0, 0]⟩ =
      ⟨[1], [2], [0, 0, 0]⟩ :=
  ⟨Or.inl (by decide),
    updateSelection_out_of_range_noop (-1) (some TOOL_CODE_delete)
      ⟨[1], [2], [0, 0, 0]⟩ (Or.inl (by decide))⟩

theorem listBindCongr {α β : Type} (l : List α) (f g : α → List β)
    (h : ∀ a ∈ l, f a = g a) : l.flatMap f = l.flatMap g := by
  induction l with
  | nil => rfl
  | cons a rest ih =>
    simp only [List.flatMap_cons]
    rw [h a (List.mem_cons_self a rest),
      ih (fun x hx => h x (List.mem_cons_of_mem a hx))]

theorem sliceTriple_getD {α : Type} (l : List α) (i : Nat) (d : α)
    (h : i * 3 + 2 < l.length) :
    sliceTriple l i = [l.getD (i * 3) d, l.getD (i * 3 + 1) d,
      l.getD (i * 3 + 2) d] := by
  unfold sliceTriple
  have h0 : i * 3 < l.length := by omega
  have h1 : i * 3 + 1 < l.length := by omega
  rw [List.drop_eq_get_cons h0]
  have e1 : l.drop (i * 3 + 1) = l.get ⟨i * 3 + 1, h1⟩ :: l.drop (i * 3 + 2) :=
    List.drop_eq_get_cons h1
  rw [e1, List.drop_eq_get_cons h]
  simp only [List.take]
  rw [List.getD_eq_get l d h0, List.getD_eq_get l d h1, List.getD_eq_get l d h]

theorem range_bind_sliceTriple {α : Type} (N : Nat) (l : List α)
    (hl : l.length = N * 3) :
    (List.range N).flatMap (fun i => sliceTriple l i) = l := by
  induction N generalizing l with
  | zero =>
    have : l = [] := List.eq_nil_of_length_eq_zero (by omega)
    simp [this]
  | succ n ih =>
    rw [List.range_succ_eq_map]
    simp only [List.flatMap_cons, List.flatMap_map]
    have hhead : sliceTriple l 0 = l.take 3 := by
      unfold sliceTriple
      simp
    have htail : ∀ i : Nat,
        sliceTriple l (Nat.succ i) = sliceTriple (l.drop 3) i := by
      intro i
      unfold sliceTriple
      rw [List.drop_drop]
      have h3 : 3 + i * 3 = Nat.succ i * 3 := by omega
      rw [h3]
    have hbind : (List.range n).flatMap (fun i => sliceTriple l (Nat.succ i)) =
        (List.range n).flatMap (fun i => sliceTriple (l.drop 3) i) :=
      listBindCongr _ _ _ (fun i _ => htail i)
    rw [hhead, hbind, ih (l.drop 3) (by simp [hl]; omega)]
    exact List.take_append_drop 3 l

theorem map_getD_range {α : Type} (l : List α) (d : α) :
    (List.range l.length).map (fun i => l.getD i d) = l := by
  induction l with
  | nil => rfl
  | cons a rest ih =>
    rw [List.length_cons, List.range_succ_eq_map]
    simp only [List.map_cons, List.map_map]
    have : ((fun i => (a :: rest).getD i d) ∘ Nat.succ) =
        (fun i => rest.getD i d) := rfl
    rw [this, ih]
    rfl

theorem length_bind_triple {α β : Type} (l : List α) (f g h : α → β) :
    (l.flatMap (fun a => [f a, g a, h a])).length = l.length * 3 := by
  induction l with
  | nil => rfl
  | cons a rest ih =>
    simp only [List.flatMap_cons, List.length_append, ih, List.length_cons]
    simp
    omega

theorem length_aliveFilter_eq_countAlive (l : List Nat) :
    ((List.range l.length).filter (fun i => l.get? i == some 0)).length =
      (l.filter (fun s => s == 0)).length := by
  induction l with
  | nil => rfl
  | cons a rest ih =>
    rw [List.length_cons, List.range_succ_eq_map]
    rw [← List.countP_eq_length_filter, ← List.countP_eq_length_filter] at *
    simp only [List.countP_cons, List.countP_map]
    have hcomp : ((fun i => (a :: rest).get? i == some 0) ∘ Nat.succ) =
        (fun i => rest.get? i == some 0) := rfl
    rw [hcomp, ih]
    by_cases ha : a = 0 <;> simp [ha, List.countP_cons]

theorem compactBuffers_eq_full (b : InternalBuffers)
    (hfull : ((List.range (b.positions.length / 3)).filter
        (fun i => b.status.get? i == some 0)).length =
      b.positions.length / 3) :
    compactBuffers b = (b, 0) := by
  simp only [compactBuffers]
  rw [if_pos hfull]

theorem compactBuffers_eq_notfull (b : InternalBuffers)
    (hfull : ¬ ((List.range (b.positions.length / 3)).filter
        (fun i => b.status.get? i == some 0)).length =
      b.positions.length / 3) :
    compactBuffers b =
      (⟨((List.range (b.positions.length / 3)).filter
            (fun i => b.status.get? i == some 0)).flatMap (fun i =>
          [b.positions.getD (i * 3) 0, b.positions.getD (i * 3 + 1) 0,
            b.positions.getD (i * 3 + 2) 0]),
        ((List.range (b.positions.length / 3)).filter
            (fun i => b.status.get? i == some 0)).flatMap (fun i =>
          [b.colors.getD (i * 3) 0, b.colors.getD (i * 3 + 1) 0,
            b.colors.getD (i * 3 + 2) 0]),
        List.replicate ((List.range (b.positions.length / 3)).filter
          (fun i => b.status.get? i == some 0)).length 0,
        List.replicate ((List.range (b.positions.length / 3)).filter
          (fun i => b.status.get? i == some 0)).length 0,
        b.intensities.map (fun ints =>
          ((List.range (b.positions.length / 3)).filter
            (fun i => b.status.get? i == some 0)).map (fun i => ints.getD i 0)),
        b.lodIndex.map (fun _ =>
          List.range ((List.range (b.positions.length / 3)).filter
            (fun i => b.status.get? i == some 0)).length)⟩,
       b.positions.length / 3 -
        ((List.range (b.positions.length / 3)).filter
          (fun i => b.status.get? i == some 0)).length) := by
  simp only [compactBuffers]
  rw [if_neg hfull]

/-- Claim C5: for every well-formed store, compaction keeps exactly the
points with status `0` (alive) in their original relative order — the new
position/color arrays are the concatenation of the kept points' triples and
the intensity array holds the kept points' intensities — produces arrays
whose length equals the count of alive points before compaction, and
returns the number of points removed. -/
theorem compactBuffers_spec (b : InternalBuffers) (hwf : wfBuffers b) :
    (compactBuffers b).2 = b.status.length - (aliveIndices b).length ∧
    (compactBuffers b).1.positions =
      (aliveIndices b).flatMap (fun i => sliceTriple b.positions i) ∧
    (compactBuffers b).1.colors =
      (aliveIndices b).flatMap (fun i => sliceTriple b.colors i) ∧
    (compactBuffers b).1.intensities =
      b.intensities.map (fun ints =>
        (aliveIndices b).map (fun i => ints.getD i 0)) ∧
    (compactBuffers b).1.positions.length = (aliveIndices b).length * 3 ∧
    (compactBuffers b).1.colors.length = (aliveIndices b).length * 3 ∧
    (compactBuffers b).1.status.length = (aliveIndices b).length ∧
    (compactBuffers b).1.selections.length = (aliveIndices b).length ∧
    (aliveIndices b).length = (b.status.filter (fun s => s == 0)).length := by
  obtain ⟨hp, hc, hs, hi, hl⟩ := hwf
  have hN : b.positions.length / 3 = b.status.length := by
    rw [hp]
    exact Nat.mul_div_cancel _ (by norm_num)
  have hKA : aliveIndices b =
      (List.range (b.positions.length / 3)).filter
        (fun i => b.status.get? i == some 0) := rfl
  have hKcount : ((List.range (b.positions.length / 3)).filter
      (fun i => b.status.get? i == some 0)).length =
      (b.status.filter (fun s => s == 0)).length := by
    rw [hN]
    exact length_aliveFilter_eq_countAlive b.status
  have hKmem : ∀ i ∈ (List.range (b.positions.length / 3)).filter
      (fun i => b.status.get? i == some 0), i < b.status.length := by
    intro i hiK
    have := (List.mem_filter.mp hiK).1
    rw [← hN]
    exact List.mem_range.mp this
  by_cases hfull : ((List.range (b.positions.length / 3)).filter
      (fun i => b.status.get? i == some 0)).length =
      b.positions.length / 3
  · have hcomp := compactBuffers_eq_full b hfull
    have hall : ∀ a ∈ List.range (b.positions.length / 3),
        (b.status.get? a == some 0) = true :=
      List.filter_length_eq_length.mp (by rw [hfull, List.length_range])
    have hKfull : (List.range (b.positions.length / 3)).filter
        (fun i => b.status.get? i == some 0) =
        List.range (b.positions.length / 3) :=
      List.filter_eq_self.mpr hall
    rw [hcomp, hKA, hKfull]
    refine ⟨?_, ?_, ?_, ?_, ?_, ?_, ?_, ?_, ?_⟩
    · simp only [List.length_range]
      omega
    · exact (range_bind_sliceTriple _ b.positions (by omega)).symm
    · exact (range_bind_sliceTriple _ b.colors (by omega)).symm
    · cases hbi : b.intensities with
      | none => rfl
      | some ints =>
        have hilen : ints.length = b.status.length := by
          rw [hbi] at hi
          exact Nat.eq_of_beq_eq_true (by simpa using hi)
        simp only [Option.map_some']
        congr 1
        have he : b.positions.length / 3 = ints.length := by omega
        rw [he]
        exact (map_getD_range ints 0).symm
    · simp only [List.length_range]
      omega
    · simp only [List.length_range]
      omega
    · simp only [List.length_range]
      omega
    · simp only [List.length_range]
      omega
    · rw [List.length_range, ← hfull]
      exact hKcount
  · have hcomp := compactBuffers_eq_notfull b hfull
    rw [hcomp, hKA]
    have hpos : ((List.range (b.positions.length / 3)).filter
        (fun i => b.status.get? i == some 0)).flatMap (fun i =>
          [b.positions.getD (i * 3) 0, b.positions.getD (i * 3 + 1) 0,
            b.positions.getD (i * 3 + 2) 0]) =
        ((List.range (b.positions.length / 3)).filter
          (fun i => b.status.get? i == some 0)).flatMap
          (fun i => sliceTriple b.positions i) := by
      apply listBindCongr
      intro i hiK
      exact (sliceTriple_getD b.positions i 0
        (by have := hKmem i hiK; omega)).symm
    have hcol : ((List.range (b.positions.length / 3)).filter
        (fun i => b.status.get? i == some 0)).flatMap (fun i =>
          [b.colors.getD (i * 3) 0, b.colors.getD (i * 3 + 1) 0,
            b.colors.getD (i * 3 + 2) 0]) =
        ((List.range (b.positions.length / 3)).filter
          (fun i => b.status.get? i == some 0)).flatMap
          (fun i => sliceTriple b.colors i) := by
      apply listBindCongr
      intro i hiK
      exact (sliceTriple_getD b.colors i 0
        (by have := hKmem i hiK; omega)).symm
    refine ⟨by rw [hN], hpos, hcol, rfl, ?_, ?_, by simp, by simp, hKcount⟩
    · simp only [length_bind_triple]
    · simp only [length_bind_triple]

/-- Witness for Claim C5 on the spec scenario: a 5-point store with status
`[Alive, Deleted, Alive, Deleted, Alive]` compacts to a 3-point store
holding original points 0, 2, 4 in that order, with 2 points removed. -/
theorem compactBuffers_spec_witness :
    wfBuffers ⟨[10, 11, 12, 20, 21, 22, 30, 31, 32, 40, 41, 42, 50, 51, 52],
      List.replicate 15 (1 : ℚ), [0, 1, 0, 1, 0], [0, 0, 0, 0, 0],
      some [5, 6, 7, 8, 9], some [0, 1, 2, 3, 4]⟩ ∧
    (compactBuffers ⟨[10, 11, 12, 20, 21, 22, 30, 31, 32, 40, 41, 42, 50, 51,
        52], List.replicate 15 (1 : ℚ), [0, 1, 0, 1, 0], [0, 0, 0, 0, 0],
      some [5, 6, 7, 8, 9], some [0, 1, 2, 3, 4]⟩).2 = 2 ∧
    (compactBuffers ⟨[10, 11, 12, 20, 21, 22, 30, 31, 32, 40, 41, 42, 50, 51,
        52], List.replicate 15 (1 : ℚ), [0, 1, 0, 1, 0], [0, 0, 0, 0, 0],
      some [5, 6, 7, 8, 9], some [0, 1, 2, 3, 4]⟩).1.positions =
      [10, 11, 12, 30, 31, 32, 50, 51, 52] ∧
    (compactBuffers ⟨[10, 11, 12, 20, 21, 22, 30, 31, 32, 40, 41, 42, 50, 51,
        52], List.replicate 15 (1 : ℚ), [0, 1, 0, 1, 0], [0, 0, 0, 0, 0],
      some [5, 6, 7, 8, 9], some [0, 1, 2, 3, 4]⟩).1.intensities =
      some [5, 7, 9] ∧
    (compactBuffers ⟨[10, 11, 12, 20, 21, 22, 30, 31, 32, 40, 41, 42, 50, 51,
        52], List.replicate 15 (1 : ℚ), [0, 1, 0, 1, 0], [0, 0, 0, 0, 0],
      some [5, 6, 7, 8, 9], some [0, 1, 2, 3, 4]⟩).1.status.length = 3 := by
  have h := compactBuffers_spec
    ⟨[10, 11, 12, 20, 21, 22, 30, 31, 32, 40, 41, 42, 50, 51, 52],
      List.replicate 15 (1 : ℚ), [0, 1, 0, 1, 0], [0, 0, 0, 0, 0],
      some [5, 6, 7, 8, 9], some [0, 1, 2, 3, 4]⟩
    (by unfold wfBuffers; decide)
  refine ⟨by unfold wfBuffers; decide, ?_, ?_, ?_, ?_⟩
  · rw [h.1]
    decide
  · rw [h.2.1]
    decide
  · rw [h.2.2.2.1]
    decide
  · rw [h.2.2.2.2.2.2.1]
    decide

theorem ceilDiv_sub_step (d s : Nat) (hs : 0 < s) (hd : 0 < d) :
    ceilDiv d s = 1 + ceilDiv (d - s) s := by
  unfold ceilDiv
  rcases le_or_lt d s with hle | hlt
  · have h0 : d - s = 0 := Nat.sub_eq_zero_of_le hle
    rw [h0]
    have hlhs : (d + s - 1) / s = 1 := by
      have h1 : d + s - 1 = (d - 1) + s := by omega
      rw [h1, Nat.add_div_right _ hs]
      have : (d - 1) / s = 0 := Nat.div_eq_of_lt (by omega)
      omega
    have hrhs : (0 + s - 1) / s = 0 := Nat.div_eq_of_lt (by omega)
    rw [hlhs, hrhs]
  · have h1 : d + s - 1 = ((d - s - 1) + s) + s := by omega
    have h2 : d - s + s - 1 = (d - s - 1) + s := by omega
    rw [h1, h2, Nat.add_div_right _ hs, Nat.add_div_right _ hs]
    omega

theorem sampleLoop_length (count stride : Nat) (hs : 0 < stride) :
    ∀ i, (sampleLoop count stride i).length = ceilDiv (count - i) stride := by
  refine sampleLoop.induct count stride
    (fun i => (sampleLoop count stride i).length = ceilDiv (count - i) stride)
    ?_ ?_
  · intro i h ih
    rw [sampleLoop, dif_pos h]
    simp only [List.length_cons]
    rw [ih]
    have hstep := ceilDiv_sub_step (count - i) stride hs (by omega)
    have he : count - i - stride = count - (i + stride) := by omega
    rw [he] at hstep
    omega
  · intro i h
    rw [sampleLoop, dif_neg h]
    simp only [List.length_nil]
    have : count - i = 0 := by omega
    rw [this]
    unfold ceilDiv
    exact (Nat.div_eq_of_lt (by omega)).symm

theorem sampleLoop_mem_lt (count stride : Nat) :
    ∀ j, ∀ i ∈ sampleLoop count stride j, i < count := by
  refine sampleLoop.induct count stride
    (fun j => ∀ i ∈ sampleLoop count stride j, i < count) ?_ ?_
  · intro j h ih i hi
    rw [sampleLoop, dif_pos h] at hi
    simp only [List.mem_cons] at hi
    rcases hi with rfl | hi
    · exact h.2
    · exact ih i hi
  · intro j h i hi
    rw [sampleLoop, dif_neg h] at hi
    simp at hi

theorem numSamples_eq (count : Nat) :
    numSamples count = ceilDiv count (strideFor count) := by
  unfold numSamples sampleIndices
  rw [sampleLoop_length count (strideFor count)
    (by unfold strideFor; omega) 0, Nat.sub_zero]

/-- Claim C9 counterexample: with a draw range of 120001 loaded points, the
stride is `max(1, floor(120001/120000)) = 1`, so the initializer samples
120001 points — more than the claimed cap of 120000. -/
theorem camera_sample_exceeds_cap : 120000 < numSamples 120001 := by
  rw [numSamples_eq]
  decide

/-- Claim C9 (amended): the camera-pose initializer samples indices by the
fixed stride `max(1, floor(count/120000))`; every sampled index lies inside
the loaded draw range, and the sample count is `ceil(count / stride)` —
which is bounded by `2 * 120000 - 1 = 239999`, but can exceed 120000. -/
theorem camera_sample_bounds (count : Nat) :
    numSamples count = ceilDiv count (strideFor count) ∧
    numSamples count ≤ 2 * maxSamples - 1 ∧
    ∀ i ∈ sampleIndices count, i < count := by
  refine ⟨numSamples_eq count, ?_, ?_⟩
  · rw [numSamples_eq]
    unfold ceilDiv strideFor maxSamples
    rcases le_or_lt count 120000 with hle | hlt
    · have hk : max 1 (count / 120000) = 1 := by
        have : count / 120000 ≤ 1 := Nat.div_le_of_le_mul (by omega)
        omega
      rw [hk]
      simp only [Nat.div_one]
      omega
    · have hpos : 0 < count / 120000 :=
        (Nat.one_le_div_iff (by norm_num)).mpr (by omega)
      have hk : max 1 (count / 120000) = count / 120000 := by omega
      rw [hk, Nat.div_le_iff_le_mul_add_pred hpos]
      omega
  · exact sampleLoop_mem_lt count (strideFor count) 0

theorem plannedCalls_callsFrom (del res : List Nat) (v : Nat) :
    plannedCalls del res v = callsFrom (chunkOps (buildOps del res)) v := by
  unfold plannedCalls
  rw [submitChunks_all_accepted]

theorem submitChunks_fail (respond : AppendCall → Bool)
    (reqs : List (String × List Nat)) :
    ∀ (v j : Nat) (cj : AppendCall),
      (callsFrom reqs v).get? j = some cj →
      (∀ k ck, k < j → (callsFrom reqs v).get? k = some ck →
        respond ck = true) →
      respond cj = false →
      submitChunks respond reqs v =
        ((callsFrom reqs v).take (j + 1), v + j, false) := by
  induction reqs with
  | nil =>
    intro v j cj hj
    simp [callsFrom] at hj
  | cons p rest ih =>
    obtain ⟨a, c⟩ := p
    intro v j cj hj hpre hfail
    cases j with
    | zero =>
      have hcj : cj = ⟨a, v, c⟩ := by
        have : (callsFrom ((a, c) :: rest) v).get? 0 =
            some (⟨a, v, c⟩ : AppendCall) := rfl
        rw [this] at hj
        exact (Option.some.inj hj).symm
      subst hcj
      simp only [submitChunks, hfail, if_false, callsFrom]
      simp [List.take_succ_cons]
    | succ j' =>
      have hresp0 : respond ⟨a, v, c⟩ = true :=
        hpre 0 ⟨a, v, c⟩ (Nat.succ_pos j') rfl
      have hj' : (callsFrom rest (v + 1)).get? j' = some cj := hj
      have hpre' : ∀ k ck, k < j' → (callsFrom rest (v + 1)).get? k = some ck →
          respond ck = true := by
        intro k ck hk hck
        exact hpre (k + 1) ck (Nat.succ_lt_succ hk) hck
      have hrec := ih (v + 1) j' cj hj' hpre' hfail
      simp only [submitChunks, hresp0, if_true, hrec, callsFrom,
        List.take_succ_cons, Prod.mk.injEq]
      refine ⟨trivial, by omega, trivial⟩

/-- Claim C8: when the chunk at position `j` of a commit's planned call
sequence is the first to be rejected, no later chunk is submitted (the
calls issued are exactly the planned prefix up to and including the failing
chunk), the caught-error flag is set, and none of the commit's local
effects happen: buffers, both pending sets and the deleted set are exactly
as before; only the local version counter reflects the `j` accepted
chunks. -/
theorem applySelection_chunk_failure_stops (st : EditorState)
    (respond : AppendCall → Bool) (j : Nat) (cj : AppendCall)
    (hj : (plannedCalls st.pendingDelete st.pendingRestore
        st.sessionVersion).get? j = some cj)
    (hpre : ∀ k ck, k < j →
      (plannedCalls st.pendingDelete st.pendingRestore
          st.sessionVersion).get? k = some ck → respond ck = true)
    (hfail : respond cj = false) :
    applySelectionModel true respond st =
      ({ st with sessionVersion := st.sessionVersion + j },
        (plannedCalls st.pendingDelete st.pendingRestore
          st.sessionVersion).take (j + 1), true) := by
  rw [plannedCalls_callsFrom] at hj hpre ⊢
  have hne : ¬(st.pendingDelete.isEmpty ∧ st.pendingRestore.isEmpty) := by
    rintro ⟨h1, h2⟩
    rw [List.isEmpty_iff] at h1 h2
    rw [h1, h2] at hj
    simp [buildOps, chunkOps, callsFrom] at hj
  have hsub := submitChunks_fail respond
    (chunkOps (buildOps st.pendingDelete st.pendingRestore))
    st.sessionVersion j cj hj hpre hfail
  unfold applySelectionModel
  simp only [Bool.not_true, false_or, hne, if_false, hsub]
  norm_num

theorem chunksOf_nil : chunksOf [] = [] := by
  rw [chunksOf]
  simp

theorem chunksOf_single (x : Nat) : chunksOf [x] = [[x]] := by
  rw [chunksOf]
  rw [dif_neg (by simp : ¬([x] : List Nat) = [])]
  rw [List.take_all_of_le (by simp [MAX_INDICES_PER_OP]),
    List.drop_eq_nil_of_le (by simp [MAX_INDICES_PER_OP]), chunksOf_nil]

theorem chunkOps_single_delete :
    chunkOps (buildOps [0] []) = [("delete", [0])] := by
  rw [chunkOps_buildOps, chunksOf_single, chunksOf_nil]
  rfl

/-- Claim C7 evidence (code bug): a commit whose first chunk the server
rejects still makes `applySelection` resolve normally — the rejection is
caught by the internal `try/catch` and only logged (the `true` flag below),
so no error propagates to the caller; the pending delete set is left
non-empty while the server already saw the operation. -/
theorem applySelection_swallows_chunk_failure :
    applySelectionModel true (fun _ => false)
      ⟨⟨[1, 2, 3], [1, 1, 1], [0], [1], none, none⟩, [0], [], [], 5⟩ =
      (⟨⟨[1, 2, 3], [1, 1, 1], [0], [1], none, none⟩, [0], [], [], 5⟩,
        [⟨"delete", 5, [0]⟩], true) := by
  simp only [applySelectionModel, chunkOps_single_delete, submitChunks]
  norm_num

/-- Witness for Claim C8: with one pending delete index and a server that
rejects the first chunk, the commit issues exactly that one call, reports
the caught error, and leaves the pending set, buffers and deleted set
untouched. -/
theorem applySelection_chunk_failure_stops_witness :
    ((plannedCalls [0] [] 5).get? 0 = some ⟨"delete", 5, [0]⟩ ∧
      (fun _ : AppendCall => false) (⟨"delete", 5, [0]⟩ : AppendCall) = false) ∧
    applySelectionModel true (fun _ => false)
      ⟨⟨[1, 2, 3], [1, 1, 1], [0], [1], none, none⟩, [0], [], [], 5⟩ =
      ({ (⟨⟨[1, 2, 3], [1, 1, 1], [0], [1], none, none⟩, [0], [], [], 5⟩ :
            EditorState) with sessionVersion := 5 + 0 },
        (plannedCalls [0] [] 5).take (0 + 1), true) := by
  have hj : (plannedCalls [0] [] 5).get? 0 = some ⟨"delete", 5, [0]⟩ := by
    rw [plannedCalls_callsFrom, chunkOps_single_delete]
    rfl
  have hpre : ∀ k ck, k < 0 →
      (plannedCalls [0] [] 5).get? k = some ck →
      (fun _ : AppendCall => false) ck = true :=
    fun k ck hk _ => absurd hk (Nat.not_lt_zero k)
  exact ⟨⟨hj, rfl⟩,
    applySelection_chunk_failure_stops
      ⟨⟨[1, 2, 3], [1, 1, 1], [0], [1], none, none⟩, [0], [], [], 5⟩
      (fun _ => false) 0 ⟨"delete", 5, [0]⟩ hj hpre rfl⟩
